import Mathlib

/-!
Verification of the NumNum arithmetic-worksheet generator (`src/generator.py`).

The Python source is shallowly embedded: every random draw becomes an explicit
oracle argument (`random.randint(1, n)` is modelled by `randint 1 n r` where
`r` is the raw oracle value, always clamped into `[1, n]`; `random.choice` and
`random.shuffle` become Boolean / list-permutation oracles), so that a theorem
quantified over all oracles covers every behaviour of the source.  Difficulty
scoring (`additional_difficulty`, an external package) is an opaque parameter,
as the spec treats it.  Python floats used for difficulty levels are modelled
by an arbitrary linearly ordered type `α`.
-/

namespace NumNum

/-- The two operators a problem may contain (`'+'` / `'-'` in the source). -/
inductive Op
  | plus
  | minus
deriving DecidableEq, Repr, Inhabited

/-- `Problem` from `generator.py`: an operand list and an operator list. -/
structure Problem where
  numbers : List Int
  operators : List Op
deriving DecidableEq, Repr, Inhabited

/-- One step of left-to-right evaluation (the body of `Problem.answer`). -/
def applyOp (total : Int) (op : Op) (n : Int) : Int :=
  match op with
  | Op.plus => total + n
  | Op.minus => total - n

/-- Tail recursion behind `Problem.answer`: fold the operator/operand pairs
left to right, exactly as the `for` loop in `Problem.answer` does (Python's
`zip` truncates to the shorter list, as the simultaneous recursion does). -/
def answerFrom (total : Int) : List Op → List Int → Int
  | op :: ops, n :: ns => answerFrom (applyOp total op n) ops ns
  | _, _ => total

/-- `Problem.answer`: evaluate the operators in order starting from the first
operand. -/
def Problem.answer (p : Problem) : Int :=
  answerFrom p.numbers.headI p.operators p.numbers.tail

/-- All running totals reached strictly after the first operand. -/
def runningTotalsFrom (total : Int) : List Op → List Int → List Int
  | op :: ops, n :: ns =>
      applyOp total op n :: runningTotalsFrom (applyOp total op n) ops ns
  | _, _ => []

/-- Every intermediate running total of the evaluation of `Problem.answer`,
starting with the first operand and ending with the final answer. -/
def Problem.runningTotals (p : Problem) : List Int :=
  p.numbers.headI :: runningTotalsFrom p.numbers.headI p.operators p.numbers.tail

/-- The problem's leading operator (`problem.operators[0]` in the source). -/
def Problem.leadingOp (p : Problem) : Op :=
  p.operators.headI

/-- `problem_signature` from `generator.py`: the (operands, operators) pair. -/
def problem_signature (p : Problem) : List Int × List Op :=
  (p.numbers, p.operators)

/-- The loop of `deduplicate_problems`, carrying the `seen` signature set
(modelled as the list of signatures seen so far). -/
def dedupAux : List Problem → List (List Int × List Op) → List Problem
  | [], _ => []
  | p :: rest, seen =>
      if problem_signature p ∈ seen then dedupAux rest seen
      else p :: dedupAux rest (problem_signature p :: seen)

/-- `deduplicate_problems` from `generator.py`: keep the first occurrence of
each signature, in input order. -/
def deduplicate_problems (problems : List Problem) : List Problem :=
  dedupAux problems []

/-- `random.randint(lo, hi)` with raw oracle value `r`: the result is clamped
into `[lo, hi]`, so quantifying over `r` ranges over exactly the values the
Python call can return (for `lo ≤ hi`). -/
def randint (lo hi : Nat) (r : Nat) : Nat :=
  lo + r % (hi - lo + 1)

/-- `ProblemFactory` from `generator.py`. -/
structure ProblemFactory where
  terms : Nat
  limit : Nat

/-- One iteration of the `for` loop in `ProblemFactory.create`.
`plusChosen` is the oracle for `random.choice(['+', '-'])`, `r` the raw
oracle for the `randint` call of this step.  Returns the appended operator,
the appended operand and the new running value, or `none` on the
`return None` branch of the source. -/
def createStep (limit current : Nat) (plusChosen : Bool) (r : Nat) :
    Option (Op × Nat × Nat) :=
  if plusChosen = true ∧ 0 < limit - current then
    let operand := randint 1 (limit - current) r
    some (Op.plus, operand, current + operand)
  else if current = 0 then
    if limit - current = 0 then none
    else
      let operand := randint 1 (limit - current) r
      some (Op.plus, operand, current + operand)
  else
    let operand := randint 1 current r
    some (Op.minus, operand, current - operand)

/-- The `for _ in range(self.terms - 1)` loop of `ProblemFactory.create`:
`k` is the number of remaining iterations, `i` the index into the oracles,
`current` the running value.  Returns the operand and operator lists built
by the loop, or `none` if some step fails. -/
def createLoop (limit : Nat) (opc : Nat → Bool) (rnd : Nat → Nat) :
    Nat → Nat → Nat → Option (List Nat × List Op)
  | 0, _, _ => some ([], [])
  | k + 1, i, current =>
      match createStep limit current (opc i) (rnd i) with
      | none => none
      | some (op, operand, next) =>
          match createLoop limit opc rnd k (i + 1) next with
          | none => none
          | some (ns, os) => some (operand :: ns, op :: os)

/-- `ProblemFactory.create`: draw the initial operand from `[1, limit]`, then
run the step loop `terms - 1` times.  `initR` is the raw oracle for the
initial `randint`, `opc`/`rnd` the per-step oracles. -/
def ProblemFactory.create (f : ProblemFactory) (initR : Nat) (opc : Nat → Bool)
    (rnd : Nat → Nat) : Option Problem :=
  let current := randint 1 f.limit initR
  match createLoop f.limit opc rnd (f.terms - 1) 0 current with
  | none => none
  | some (ns, os) => some ⟨(current :: ns).map (Nat.cast : Nat → Int), os⟩

/-- A `(Problem, difficulty)` pair, the element type of the scored pools.
Difficulty values (`float` in the source) live in an arbitrary linearly
ordered type `α`. -/
abbrev Scored (α : Type) := Problem × α

/-- `GenerationRequest` from `generator.py`.  `amount` is the requested count
and `minus_ratio` the subtraction percentage (collected by `prompt_int` /
`prompt_percentage`, hence natural numbers). -/
structure GenerationRequest (α : Type) where
  amount : Nat
  minus_ratio : Nat
  min_level : α
  max_level : α

/-- `OperatorPools` from `generator.py`: the pool split by leading operator. -/
structure OperatorPools (α : Type) where
  minus : List (Scored α)
  plus : List (Scored α)

/-- The four `random.shuffle` calls that `ProblemSelector.select` performs
(on `eligible`, `pools.minus`, `pools.plus` and `remaining`), modelled as one
oracle per call site. -/
structure SelectOracle (α : Type) where
  se : List (Scored α) → List (Scored α)
  sm : List (Scored α) → List (Scored α)
  sp : List (Scored α) → List (Scored α)
  sr : List (Scored α) → List (Scored α)

/-- A shuffle oracle is lawful when each component permutes its input, which
is all `random.shuffle` can do. -/
def SelectOracle.Lawful {α : Type} (o : SelectOracle α) : Prop :=
  (∀ l, (o.se l).Perm l) ∧ (∀ l, (o.sm l).Perm l) ∧
    (∀ l, (o.sp l).Perm l) ∧ (∀ l, (o.sr l).Perm l)

/-- The identity oracle (a lawful shuffle). -/
def idOracle (α : Type) : SelectOracle α :=
  ⟨id, id, id, id⟩

variable {α : Type}

/-- `ProblemSelector._filter_by_difficulty`: keep the scored problems whose
level satisfies `min_level <= level <= max_level`. -/
def filterByDifficulty [LinearOrder α] (scored_samples : List (Scored α))
    (request : GenerationRequest α) : List (Scored α) :=
  scored_samples.filter fun x =>
    decide (request.min_level ≤ x.2 ∧ x.2 ≤ request.max_level)

/-- `ProblemSelector._build_operator_pools`: partition by leading operator. -/
def buildOperatorPools (problems : List (Scored α)) : OperatorPools α :=
  { minus := problems.filter fun item => decide (item.1.leadingOp = Op.minus)
    plus := problems.filter fun item => decide (item.1.leadingOp = Op.plus) }

/-- Python's `round(n / d)` for natural `n` and positive `d`: round half to
even (for `d = 100` the tie case `n / 100 = k + 1/2` is exactly representable
as a float, so CPython's `round` performs exactly this). -/
def roundHalfEvenDiv (n d : Nat) : Nat :=
  let q := n / d
  let r := n % d
  if 2 * r < d then q
  else if d < 2 * r then q + 1
  else if q % 2 = 0 then q else q + 1

/-- `minus_target` as computed on line 136 of `generator.py`:
`round(request.amount * request.minus_ratio / 100)`. -/
def minusTarget (request : GenerationRequest α) : Nat :=
  roundHalfEvenDiv (request.amount * request.minus_ratio) 100

/-- `plus_target = request.amount - minus_target` (line 137); a Python `int`,
so it may be negative when `minus_ratio > 100`. -/
def plusTargetInt (request : GenerationRequest α) : Int :=
  (request.amount : Int) - (minusTarget request : Int)

/-- The shrinking step of `select` (lines 139-144): a pool shorter than its
target replaces the target by the pool's length. -/
def shrinkTarget (poolLen : Nat) (target : Int) : Int :=
  if (poolLen : Int) < target then (poolLen : Int) else target

/-- Python list slicing `l[:t]` for an `int` bound `t`: a nonnegative bound
takes a prefix, a negative bound drops `|t|` elements from the end. -/
def pyTake (t : Int) (l : List (Scored α)) : List (Scored α) :=
  if 0 ≤ t then l.take t.toNat else l.take (l.length - t.natAbs)

/-- Lines 134-150 of `select`: partition the (already shuffled) eligible
list, shrink the two targets, shuffle each pool and concatenate the two
prefixes. -/
def pickPhase [LinearOrder α] (request : GenerationRequest α)
    (eligible : List (Scored α)) (o : SelectOracle α) : List (Scored α) :=
  pyTake
      (shrinkTarget (buildOperatorPools eligible).minus.length
        (minusTarget request : Int))
      (o.sm (buildOperatorPools eligible).minus) ++
    pyTake
      (shrinkTarget (buildOperatorPools eligible).plus.length
        (plusTargetInt request))
      (o.sp (buildOperatorPools eligible).plus)

/-- Lines 152-156 of `select`: if the picks fall short of `amount`, top up
from the remaining eligible problems (shuffled), ignoring the operator mix. -/
def topUp [LinearOrder α] (request : GenerationRequest α)
    (eligible selected : List (Scored α)) (o : SelectOracle α) :
    List (Scored α) :=
  if selected.length < request.amount then
    selected ++
      (o.sr (eligible.filter fun item => decide (item ∉ selected))).take
        (request.amount - selected.length)
  else selected

/-- `ProblemSelector.select` (lines 128-158): filter by difficulty, return
`[]` if nothing is eligible, otherwise shuffle, pick per operator target, top
up, and truncate to `amount`. -/
def ProblemSelector.select [LinearOrder α] (scored_samples : List (Scored α))
    (request : GenerationRequest α) (o : SelectOracle α) : List (Scored α) :=
  if filterByDifficulty scored_samples request = [] then []
  else
    (topUp request (o.se (filterByDifficulty scored_samples request))
        (pickPhase request (o.se (filterByDifficulty scored_samples request)) o)
        o).take request.amount

/-- Python `list.remove` wrapped in `try/except ValueError` (the body of
`ProblemSelector.consume`): remove the first occurrence if present, else
leave the list unchanged. -/
def removeFirst [DecidableEq β] : List β → β → List β
  | [], _ => []
  | x :: xs, a => if x = a then xs else x :: removeFirst xs a

/-- `ProblemSelector.consume`: remove each selected item from the pool. -/
def ProblemSelector.consume [LinearOrder α] (scored_samples : List (Scored α))
    (selected : List (Scored α)) : List (Scored α) :=
  selected.foldl removeFirst scored_samples

/-- The multi-batch loop of `main` (lines 677-693): each batch returned by
`select` is passed to `consume` before the next round's `select`. -/
def runRounds [LinearOrder α] :
    List (Scored α) → List (GenerationRequest α × SelectOracle α) →
      List (List (Scored α))
  | _, [] => []
  | pool, (request, o) :: rest =>
      let batch := ProblemSelector.select pool request o
      batch :: runRounds (ProblemSelector.consume pool batch) rest

/-- The mutable state of the collection phase of `generate`: the collected
batch, the per-answer counter dictionary (`answer_counts`, modelled as a
total function defaulting to `0` like `dict.get(a, 0)`), and the two
balance counters. -/
structure GenState (α : Type) where
  collected : List (Scored α)
  counts : Int → Nat
  plus_count : Nat
  minus_count : Nat

/-- The initial collection state of `generate`. -/
def initGenState (α : Type) : GenState α :=
  ⟨[], fun _ => 0, 0, 0⟩

/-- The shared body of both collection loops of `generate` (lines 421-438 and
450-467): skip a candidate whose answer has reached `max_per_answer`, skip it
when its side of the balance is full, otherwise append it and bump the
counters.  The caller has already checked `len(collected) < amount`. -/
def stepCollect (balance : Bool) (max_per_answer plus_target minus_target : Nat)
    (st : GenState α) (c : Scored α) : GenState α :=
  let answer := c.1.answer
  if max_per_answer ≤ st.counts answer then st
  else if balance = true ∧ c.1.leadingOp = Op.plus ∧ plus_target ≤ st.plus_count then st
  else if balance = true ∧ c.1.leadingOp = Op.minus ∧ minus_target ≤ st.minus_count then st
  else
    { collected := st.collected ++ [c]
      counts := fun a => if a = answer then st.counts a + 1 else st.counts a
      plus_count :=
        if balance = true ∧ c.1.leadingOp = Op.plus then st.plus_count + 1
        else st.plus_count
      minus_count :=
        if balance = true ∧ c.1.leadingOp = Op.minus then st.minus_count + 1
        else st.minus_count }

/-- The `for problem, level in candidates` loop of `generate` (lines
417-438), with its `break` once `amount` problems are collected. -/
def scanCandidates (balance : Bool)
    (amount max_per_answer plus_target minus_target : Nat) :
    List (Scored α) → GenState α → GenState α
  | [], st => st
  | c :: rest, st =>
      if amount ≤ st.collected.length then st
      else
        scanCandidates balance amount max_per_answer plus_target minus_target
          rest (stepCollect balance max_per_answer plus_target minus_target st c)

/-- The first `while` loop of `generate` (lines 405-413): keep invoking the
factory (the oracle `factoryOut`, indexed by the 0-based attempt number)
until `candidate_target` candidates are gathered or the attempt budget runs
out.  `fuel` is the remaining budget `limit - attempts`; the pair returned is
(candidates, attempts). -/
def genLoop1 [LinearOrder α] (factoryOut : Nat → Option Problem)
    (diff : Problem → α) (min_level max_level : α) (candidate_target : Nat) :
    Nat → Nat → List (Scored α) → List (Scored α) × Nat
  | 0, attempts, cs => (cs, attempts)
  | fuel + 1, attempts, cs =>
      if candidate_target ≤ cs.length then (cs, attempts)
      else
        match factoryOut attempts with
        | none =>
            genLoop1 factoryOut diff min_level max_level candidate_target fuel
              (attempts + 1) cs
        | some p =>
            if p.operators = [] then
              genLoop1 factoryOut diff min_level max_level candidate_target fuel
                (attempts + 1) cs
            else
              let level := diff p
              if min_level ≤ level ∧ level ≤ max_level then
                genLoop1 factoryOut diff min_level max_level candidate_target
                  fuel (attempts + 1) (cs ++ [(p, level)])
              else
                genLoop1 factoryOut diff min_level max_level candidate_target
                  fuel (attempts + 1) cs

/-- The second `while` loop of `generate` (lines 440-467): keep invoking the
factory until `amount` problems are collected or the shared attempt budget
runs out. -/
def genLoop2 [LinearOrder α] (factoryOut : Nat → Option Problem)
    (diff : Problem → α) (min_level max_level : α) (balance : Bool)
    (amount max_per_answer plus_target minus_target : Nat) :
    Nat → Nat → GenState α → GenState α × Nat
  | 0, attempts, st => (st, attempts)
  | fuel + 1, attempts, st =>
      if amount ≤ st.collected.length then (st, attempts)
      else
        match factoryOut attempts with
        | none =>
            genLoop2 factoryOut diff min_level max_level balance amount
              max_per_answer plus_target minus_target fuel (attempts + 1) st
        | some p =>
            if p.operators = [] then
              genLoop2 factoryOut diff min_level max_level balance amount
                max_per_answer plus_target minus_target fuel (attempts + 1) st
            else
              let level := diff p
              if min_level ≤ level ∧ level ≤ max_level then
                genLoop2 factoryOut diff min_level max_level balance amount
                  max_per_answer plus_target minus_target fuel (attempts + 1)
                  (stepCollect balance max_per_answer plus_target minus_target
                    st (p, level))
              else
                genLoop2 factoryOut diff min_level max_level balance amount
                  max_per_answer plus_target minus_target fuel (attempts + 1) st

/-- `generate` from `generator.py` (lines 381-469), returning the collected
list together with the final value of the shared `attempts` counter.
`factoryOut` is the oracle for `factory.create()` (indexed by attempt
number), `diff` the opaque difficulty scorer, `shuffleCands` the oracle for
`random.shuffle(candidates)`, and `oddPlus` the `random.choice([True,
False])` used to assign the odd leftover when `amount` is odd. -/
def generateFull [LinearOrder α] (terms : Nat) (factoryOut : Nat → Option Problem)
    (diff : Problem → α) (amount : Nat) (min_level max_level : α)
    (shuffleCands : List (Scored α) → List (Scored α)) (oddPlus : Bool) :
    List (Scored α) × Nat :=
  let candidate_target := max (amount * 2) amount
  let limit := candidate_target * 200
  let balance_single_step := decide (terms = 2)
  let half := amount / 2
  let plus_target :=
    if balance_single_step = true then
      if amount % 2 = 1 ∧ oddPlus = true then half + 1 else half
    else 0
  let minus_target :=
    if balance_single_step = true then
      if amount % 2 = 1 ∧ ¬oddPlus = true then half + 1 else half
    else 0
  let max_per_answer := max 1 ((amount + 9) / 10)
  let r1 := genLoop1 factoryOut diff min_level max_level candidate_target limit 0 []
  let st1 :=
    if r1.1 = [] then initGenState α
    else
      scanCandidates balance_single_step amount max_per_answer plus_target
        minus_target (shuffleCands r1.1) (initGenState α)
  let r2 := genLoop2 factoryOut diff min_level max_level balance_single_step
    amount max_per_answer plus_target minus_target (limit - r1.2) r1.2 st1
  (r2.1.collected, r2.2)

/-- `generate`: the list the Python function returns. -/
def generate [LinearOrder α] (terms : Nat) (factoryOut : Nat → Option Problem)
    (diff : Problem → α) (amount : Nat) (min_level max_level : α)
    (shuffleCands : List (Scored α) → List (Scored α)) (oddPlus : Bool) :
    List (Scored α) :=
  (generateFull terms factoryOut diff amount min_level max_level shuffleCands
    oddPlus).1

/-- A small concrete scored pool (difficulty values in `Int`) used by the
witnesses below. -/
def witnessPool : List (Scored Int) :=
  [(⟨[2, 3], [Op.plus]⟩, 1), (⟨[5, 1], [Op.minus]⟩, 2),
    (⟨[4, 4], [Op.plus]⟩, 3), (⟨[9, 2], [Op.minus]⟩, 4)]

/-- A small concrete request used by the witnesses. -/
def witnessRequest : GenerationRequest Int :=
  ⟨2, 50, 1, 3⟩

/-- A request whose difficulty window excludes all of `witnessPool`. -/
def witnessRequestHigh : GenerationRequest Int :=
  ⟨2, 50, 10, 20⟩

/-! ### Lemmas about the factory -/

theorem randint_pos (n r : Nat) : 1 ≤ randint 1 n r := by
  unfold randint; omega

theorem randint_le {n : Nat} (hn : 0 < n) (r : Nat) : randint 1 n r ≤ n := by
  unfold randint
  have h1 : n - 1 + 1 = n := by omega
  rw [h1]
  have := Nat.mod_lt r hn
  omega

theorem createStep_bounds {limit current : Nat} {b : Bool} {r : Nat}
    {op : Op} {m next : Nat} (hc : current ≤ limit)
    (h : createStep limit current b r = some (op, m, next)) :
    next ≤ limit ∧ (next : Int) = applyOp (current : Int) op (m : Int) := by
  unfold createStep at h
  split_ifs at h with h1 h2 h3
  · obtain ⟨-, hlt⟩ := h1
    simp only [Option.some.injEq, Prod.mk.injEq] at h
    obtain ⟨hop, hm, hnext⟩ := h
    subst hop; subst hm; subst hnext
    have := randint_le hlt r
    constructor
    · omega
    · simp only [applyOp]; omega
  · simp only [Option.some.injEq, Prod.mk.injEq] at h
    obtain ⟨hop, hm, hnext⟩ := h
    subst hop; subst hm; subst hnext
    have hlt : 0 < limit - current := by omega
    have := randint_le hlt r
    constructor
    · omega
    · simp only [applyOp]; omega
  · simp only [Option.some.injEq, Prod.mk.injEq] at h
    obtain ⟨hop, hm, hnext⟩ := h
    subst hop; subst hm; subst hnext
    have hcur : 0 < current := by omega
    have := randint_le hcur r
    have := randint_pos current r
    constructor
    · omega
    · simp only [applyOp]; omega

theorem createLoop_totals {limit : Nat} {opc : Nat → Bool} {rnd : Nat → Nat}
    (k : Nat) :
    ∀ (i current : Nat) (ns : List Nat) (os : List Op),
      createLoop limit opc rnd k i current = some (ns, os) →
      current ≤ limit →
      ∀ t ∈ runningTotalsFrom (current : Int) os (ns.map (Nat.cast : Nat → Int)),
        0 ≤ t ∧ t ≤ (limit : Int) := by
  induction k with
  | zero =>
      intro i current ns os h hc t ht
      simp only [createLoop, Option.some.injEq, Prod.mk.injEq] at h
      obtain ⟨h1, h2⟩ := h
      subst h1; subst h2
      simp [runningTotalsFrom] at ht
  | succ k ih =>
      intro i current ns os h hc t ht
      rw [createLoop] at h
      cases hstep : createStep limit current (opc i) (rnd i) with
      | none => simp [hstep] at h
      | some v =>
          obtain ⟨op, m, next⟩ := v
          simp only [hstep] at h
          cases hrec : createLoop limit opc rnd k (i + 1) next with
          | none => simp [hrec] at h
          | some w =>
              obtain ⟨ns1, os1⟩ := w
              simp only [hrec, Option.some.injEq, Prod.mk.injEq] at h
              obtain ⟨h1, h2⟩ := h
              subst h1; subst h2
              obtain ⟨hnext, heq⟩ := createStep_bounds hc hstep
              simp only [List.map_cons, runningTotalsFrom, ← heq] at ht
              rcases List.mem_cons.mp ht with h3 | h3
              · subst h3
                refine ⟨?_, ?_⟩ <;> omega
              · exact ih (i + 1) next ns1 os1 hrec hnext t h3

theorem answerFrom_mem (ops : List Op) :
    ∀ (c : Int) (ns : List Int),
      answerFrom c ops ns ∈ c :: runningTotalsFrom c ops ns := by
  induction ops with
  | nil => intro c ns; cases ns <;> simp [answerFrom, runningTotalsFrom]
  | cons op ops ih =>
      intro c ns
      cases ns with
      | nil => simp [answerFrom, runningTotalsFrom]
      | cons n ns1 =>
          simp only [answerFrom, runningTotalsFrom]
          exact List.mem_cons_of_mem _ (ih (applyOp c op n) ns1)

/-- C1: for `terms ≥ 1` and `limit ≥ 1`, whenever `ProblemFactory.create`
returns a `Problem` (rather than `None`), evaluating its operators left to
right starting from the first operand keeps every intermediate running
total, including the final answer, within `[0, limit]`. -/
theorem create_runningTotals_in_range (terms limit initR : Nat)
    (opc : Nat → Bool) (rnd : Nat → Nat) (hterms : 1 ≤ terms)
    (hlimit : 1 ≤ limit) (p : Problem)
    (hp : ProblemFactory.create ⟨terms, limit⟩ initR opc rnd = some p) :
    (∀ t ∈ p.runningTotals, 0 ≤ t ∧ t ≤ (limit : Int)) ∧
      0 ≤ p.answer ∧ p.answer ≤ (limit : Int) := by
  rw [ProblemFactory.create] at hp
  cases hloop : createLoop limit opc rnd (terms - 1) 0 (randint 1 limit initR) with
  | none => rw [hloop] at hp; simp at hp
  | some v =>
      obtain ⟨ns, os⟩ := v
      rw [hloop] at hp
      simp only [Option.some.injEq] at hp
      subst hp
      have hc0 : randint 1 limit initR ≤ limit := randint_le hlimit initR
      have htotals :
          ∀ t ∈ (⟨(randint 1 limit initR :: ns).map (Nat.cast : Nat → Int), os⟩ :
              Problem).runningTotals,
            0 ≤ t ∧ t ≤ (limit : Int) := by
        intro t ht
        simp only [Problem.runningTotals, List.map_cons, List.headI,
          List.tail_cons] at ht
        rcases List.mem_cons.mp ht with h3 | h3
        · subst h3
          refine ⟨?_, ?_⟩ <;> omega
        · exact createLoop_totals (terms - 1) 0 _ ns os hloop hc0 t h3
      refine ⟨htotals, ?_, ?_⟩
      · exact (htotals _ (by
          simpa [Problem.answer, Problem.runningTotals] using
            answerFrom_mem os _ (ns.map (Nat.cast : Nat → Int)))).1
      · exact (htotals _ (by
          simpa [Problem.answer, Problem.runningTotals] using
            answerFrom_mem os _ (ns.map (Nat.cast : Nat → Int)))).2

/-- Witness for C1 at `terms = 2`, `limit = 10` and concrete oracles. -/
theorem create_runningTotals_in_range_witness :
    (∀ t ∈ (⟨[(4 : Int), 5], [Op.plus]⟩ : Problem).runningTotals,
        0 ≤ t ∧ t ≤ (10 : Int)) ∧
      0 ≤ (⟨[(4 : Int), 5], [Op.plus]⟩ : Problem).answer ∧
        (⟨[(4 : Int), 5], [Op.plus]⟩ : Problem).answer ≤ (10 : Int) :=
  create_runningTotals_in_range 2 10 3 (fun _ => true) (fun _ => 4)
    (by decide) (by decide) ⟨[(4 : Int), 5], [Op.plus]⟩ (by decide)

theorem createStep_isSome (limit current : Nat) (b : Bool) (r : Nat)
    (hl : 1 ≤ limit) : (createStep limit current b r).isSome = true := by
  unfold createStep
  split_ifs with h1 h2 h3
  · rfl
  · omega
  · rfl
  · rfl

theorem createLoop_isSome {limit : Nat} (opc : Nat → Bool) (rnd : Nat → Nat)
    (hl : 1 ≤ limit) (k : Nat) :
    ∀ i current, (createLoop limit opc rnd k i current).isSome = true := by
  induction k with
  | zero => intro i current; simp [createLoop]
  | succ k ih =>
      intro i current
      rw [createLoop]
      cases hstep : createStep limit current (opc i) (rnd i) with
      | none =>
          have := createStep_isSome limit current (opc i) (rnd i) hl
          rw [hstep] at this; simp at this
      | some v =>
          obtain ⟨op, m, next⟩ := v
          cases hrec : createLoop limit opc rnd k (i + 1) next with
          | none =>
              have := ih (i + 1) next
              rw [hrec] at this; simp at this
          | some w => simp [hstep, hrec]

/-- C9: for `terms ≥ 1` and `limit ≥ 1`, `ProblemFactory.create` never
returns `None`: its failure branch (subtraction required at running total 0
with no room to add) would need `limit - 0 = 0`, impossible for
`limit ≥ 1`. -/
theorem create_never_none (terms limit initR : Nat) (opc : Nat → Bool)
    (rnd : Nat → Nat) (hterms : 1 ≤ terms) (hlimit : 1 ≤ limit) :
    (ProblemFactory.create ⟨terms, limit⟩ initR opc rnd).isSome = true := by
  rw [ProblemFactory.create]
  cases hloop : createLoop limit opc rnd (terms - 1) 0 (randint 1 limit initR) with
  | none =>
      have := createLoop_isSome opc rnd hlimit (terms - 1) 0
        (randint 1 limit initR)
      rw [hloop] at this; simp at this
  | some v => obtain ⟨ns, os⟩ := v; simp

/-- Witness for C9 at `terms = 3`, `limit = 7` and concrete oracles. -/
theorem create_never_none_witness :
    (ProblemFactory.create ⟨3, 7⟩ 0 (fun i => i % 2 = 0)
      (fun i => i + 5)).isSome = true :=
  create_never_none 3 7 0 (fun i => i % 2 = 0) (fun i => i + 5)
    (by decide) (by decide)

/-! ### Lemmas about deduplication -/

theorem problem_signature_injective : Function.Injective problem_signature := by
  intro p q h
  cases p; cases q
  simpa [problem_signature] using h

theorem dedupAux_sublist :
    ∀ (l : List Problem) (seen : List (List Int × List Op)),
      (dedupAux l seen).Sublist l := by
  intro l
  induction l with
  | nil => intro seen; simp [dedupAux]
  | cons p rest ih =>
      intro seen
      rw [dedupAux]
      split_ifs with h
      · exact (ih seen).cons p
      · exact (ih _).cons₂ p

theorem dedupAux_sig_not_mem :
    ∀ (l : List Problem) (seen : List (List Int × List Op)),
      ∀ q ∈ dedupAux l seen, problem_signature q ∉ seen := by
  intro l
  induction l with
  | nil => intro seen q hq; simp [dedupAux] at hq
  | cons p rest ih =>
      intro seen q hq
      rw [dedupAux] at hq
      split_ifs at hq with h
      · exact ih seen q hq
      · rcases List.mem_cons.mp hq with h1 | h1
        · subst h1; exact h
        · intro hmem
          exact ih _ q h1 (List.mem_cons_of_mem _ hmem)

theorem dedupAux_pairwise :
    ∀ (l : List Problem) (seen : List (List Int × List Op)),
      (dedupAux l seen).Pairwise
        (fun a b => problem_signature a ≠ problem_signature b) := by
  intro l
  induction l with
  | nil => intro seen; simp [dedupAux]
  | cons p rest ih =>
      intro seen
      rw [dedupAux]
      split_ifs with h
      · exact ih seen
      · refine List.Pairwise.cons ?_ (ih _)
        intro q hq heq
        have hnot := dedupAux_sig_not_mem rest (problem_signature p :: seen) q hq
        exact hnot (heq ▸ List.mem_cons_self _ _)

theorem dedupAux_covers :
    ∀ (l : List Problem) (seen : List (List Int × List Op)), ∀ x ∈ l,
      problem_signature x ∈ seen ∨
        ∃ q ∈ dedupAux l seen, problem_signature q = problem_signature x := by
  intro l
  induction l with
  | nil => intro seen x hx; simp at hx
  | cons p rest ih =>
      intro seen x hx
      rw [dedupAux]
      rcases List.mem_cons.mp hx with h1 | h1
      · subst h1
        split_ifs with h
        · exact Or.inl h
        · exact Or.inr ⟨x, List.mem_cons_self _ _, rfl⟩
      · split_ifs with h
        · exact ih seen x h1
        · rcases ih (problem_signature p :: seen) x h1 with h2 | ⟨q, hq, hq2⟩
          · rcases List.mem_cons.mp h2 with h3 | h3
            · exact Or.inr ⟨p, List.mem_cons_self _ _, h3.symm⟩
            · exact Or.inl h3
          · exact Or.inr ⟨q, List.mem_cons_of_mem _ hq, hq2⟩

theorem dedupAux_eq_self :
    ∀ (l : List Problem) (seen : List (List Int × List Op)),
      (∀ x ∈ l, problem_signature x ∉ seen) →
      l.Pairwise (fun a b => problem_signature a ≠ problem_signature b) →
      dedupAux l seen = l := by
  intro l
  induction l with
  | nil => intro seen h1 h2; simp [dedupAux]
  | cons p rest ih =>
      intro seen h1 h2
      rw [dedupAux]
      rw [List.pairwise_cons] at h2
      split_ifs with h
      · exact absurd h (h1 p (List.mem_cons_self _ _))
      · rw [ih (problem_signature p :: seen) ?_ h2.2]
        intro x hx
        rw [List.mem_cons]
        push_neg
        exact ⟨fun heq => h2.1 x hx heq.symm, h1 x (List.mem_cons_of_mem _ hx)⟩

theorem dedupAux_first_mem :
    ∀ (l1 : List Problem) (x : Problem) (l2 : List Problem)
      (seen : List (List Int × List Op)),
      problem_signature x ∉ seen →
      (∀ y ∈ l1, problem_signature y ≠ problem_signature x) →
      x ∈ dedupAux (l1 ++ x :: l2) seen := by
  intro l1
  induction l1 with
  | nil =>
      intro x l2 seen hseen hfirst
      rw [List.nil_append, dedupAux, if_neg hseen]
      exact List.mem_cons_self _ _
  | cons p rest ih =>
      intro x l2 seen hseen hfirst
      rw [List.cons_append, dedupAux]
      split_ifs with h
      · exact ih x l2 seen hseen fun y hy =>
          hfirst y (List.mem_cons_of_mem _ hy)
      · refine List.mem_cons_of_mem _ (ih x l2 _ ?_ fun y hy =>
          hfirst y (List.mem_cons_of_mem _ hy))
        rw [List.mem_cons]
        push_neg
        exact ⟨fun heq => hfirst p (List.mem_cons_self _ _) heq.symm, hseen⟩

/-- C6: `deduplicate_problems` returns exactly the first occurrence of each
distinct `(operand sequence, operator sequence)` signature, in input order:
the output has pairwise distinct signatures, it is a sublist of the input
(so the relative order of first occurrences is preserved), every first
occurrence is in the output and every output element is a first occurrence,
a signature-distinct input is returned unchanged, and the operation is
idempotent. -/
theorem deduplicate_problems_spec (l : List Problem) :
    (deduplicate_problems l).Pairwise
        (fun a b => problem_signature a ≠ problem_signature b) ∧
      (deduplicate_problems l).Sublist l ∧
      (∀ x ∈ l, ∃ q ∈ deduplicate_problems l,
        problem_signature q = problem_signature x) ∧
      (∀ (x : Problem) (l1 l2 : List Problem), l = l1 ++ x :: l2 →
        (∀ y ∈ l1, problem_signature y ≠ problem_signature x) →
        x ∈ deduplicate_problems l) ∧
      (∀ x ∈ deduplicate_problems l, ∀ (l1 l2 : List Problem),
        l = l1 ++ x :: l2 → x ∉ l1 →
        ∀ y ∈ l1, problem_signature y ≠ problem_signature x) ∧
      (l.Pairwise (fun a b => problem_signature a ≠ problem_signature b) →
        deduplicate_problems l = l) ∧
      deduplicate_problems (deduplicate_problems l) = deduplicate_problems l := by
  refine ⟨dedupAux_pairwise l [], dedupAux_sublist l [], ?_, ?_, ?_, ?_, ?_⟩
  · intro x hx
    rcases dedupAux_covers l [] x hx with h | h
    · simp at h
    · exact h
  · intro x l1 l2 hdec hfirst
    subst hdec
    exact dedupAux_first_mem l1 x l2 [] (by simp) hfirst
  · intro x _ l1 l2 hdec hnot y hy heq
    exact hnot (problem_signature_injective heq ▸ hy)
  · intro hpw
    exact dedupAux_eq_self l [] (by simp) hpw
  · exact dedupAux_eq_self _ [] (by simp) (dedupAux_pairwise l [])

/-- Witness for C6: a signature-distinct list is returned unchanged. -/
theorem deduplicate_problems_spec_witness :
    deduplicate_problems
        [(⟨[1, 2], [Op.plus]⟩ : Problem), (⟨[3, 1], [Op.minus]⟩ : Problem)] =
      [(⟨[1, 2], [Op.plus]⟩ : Problem), (⟨[3, 1], [Op.minus]⟩ : Problem)] :=
  (deduplicate_problems_spec
      [(⟨[1, 2], [Op.plus]⟩ : Problem),
        (⟨[3, 1], [Op.minus]⟩ : Problem)]).2.2.2.2.2.1 (by decide)

/-! ### Lemmas about the selector -/

theorem idOracle_lawful (α : Type) : (idOracle α).Lawful :=
  ⟨fun l => List.Perm.refl l, fun l => List.Perm.refl l,
    fun l => List.Perm.refl l, fun l => List.Perm.refl l⟩

theorem pyTake_subset (t : Int) (l : List (Scored α)) :
    ∀ x ∈ pyTake t l, x ∈ l := by
  intro x hx
  unfold pyTake at hx
  split_ifs at hx <;> exact List.take_subset _ _ hx

theorem pickPhase_subset [LinearOrder α] (request : GenerationRequest α)
    (eligible : List (Scored α)) (o : SelectOracle α) (hL : o.Lawful) :
    ∀ x ∈ pickPhase request eligible o, x ∈ eligible := by
  intro x hx
  unfold pickPhase at hx
  rcases List.mem_append.mp hx with h | h
  · have h1 := pyTake_subset _ _ _ h
    have h2 := (hL.2.1 _).mem_iff.mp h1
    simp only [buildOperatorPools] at h2
    exact List.mem_of_mem_filter h2
  · have h1 := pyTake_subset _ _ _ h
    have h2 := (hL.2.2.1 _).mem_iff.mp h1
    simp only [buildOperatorPools] at h2
    exact List.mem_of_mem_filter h2

theorem topUp_subset [LinearOrder α] (request : GenerationRequest α)
    (eligible selected : List (Scored α)) (o : SelectOracle α)
    (hL : o.Lawful) :
    ∀ x ∈ topUp request eligible selected o, x ∈ selected ∨ x ∈ eligible := by
  intro x hx
  unfold topUp at hx
  split_ifs at hx with h
  · rcases List.mem_append.mp hx with h1 | h1
    · exact Or.inl h1
    · have h2 := List.take_subset _ _ h1
      have h3 := (hL.2.2.2 _).mem_iff.mp h2
      exact Or.inr (List.mem_of_mem_filter h3)
  · exact Or.inl hx

theorem select_mem [LinearOrder α] (pool : List (Scored α))
    (request : GenerationRequest α) (o : SelectOracle α) (hL : o.Lawful) :
    ∀ x ∈ ProblemSelector.select pool request o,
      x ∈ filterByDifficulty pool request := by
  intro x hx
  unfold ProblemSelector.select at hx
  split_ifs at hx with h
  · simp at hx
  · have h1 := List.take_subset _ _ hx
    rcases topUp_subset _ _ _ _ hL x h1 with h2 | h2
    · exact (hL.1 _).mem_iff.mp (pickPhase_subset _ _ _ hL x h2)
    · exact (hL.1 _).mem_iff.mp h2

/-- C2: for every pool of scored problems and every `GenerationRequest`,
`ProblemSelector.select` returns a list of length at most `request.amount`,
and every `(problem, level)` pair in it satisfies
`request.min_level ≤ level ≤ request.max_level`.  Quantified over every
lawful shuffle oracle, hence over every run of the randomized source. -/
theorem select_length_le_and_levels_in_range [LinearOrder α]
    (pool : List (Scored α)) (request : GenerationRequest α)
    (o : SelectOracle α) (hL : o.Lawful) :
    (ProblemSelector.select pool request o).length ≤ request.amount ∧
      ∀ x ∈ ProblemSelector.select pool request o,
        request.min_level ≤ x.2 ∧ x.2 ≤ request.max_level := by
  constructor
  · unfold ProblemSelector.select
    split_ifs
    · simp
    · simpa using List.length_take_le _ _
  · intro x hx
    have h1 := select_mem pool request o hL x hx
    rw [filterByDifficulty, List.mem_filter] at h1
    simpa using h1.2

/-- C7: if no pooled problem's difficulty lies within the requested bounds,
`select` returns the empty list (taking the early-return branch; the model
is total, matching the source's raising no exception on this path). -/
theorem select_empty_when_none_eligible [LinearOrder α]
    (pool : List (Scored α)) (request : GenerationRequest α)
    (o : SelectOracle α)
    (h : ∀ x ∈ pool, ¬(request.min_level ≤ x.2 ∧ x.2 ≤ request.max_level)) :
    ProblemSelector.select pool request o = [] := by
  have hfilter : filterByDifficulty pool request = [] := by
    rw [filterByDifficulty]
    refine List.filter_eq_nil_iff.mpr ?_
    intro a ha
    simpa using h a ha
  rw [ProblemSelector.select, if_pos hfilter]

/-- C3: whenever the difficulty-filtered set contains at least
`request.amount` pairwise-distinct entries, `select` returns exactly
`request.amount` items — an undersupplied leading-operator pool has its
target shrunk to its size and the shortfall is topped up from the remaining
filtered problems. -/
theorem select_length_eq_amount [LinearOrder α] (pool : List (Scored α))
    (request : GenerationRequest α) (o : SelectOracle α) (hL : o.Lawful)
    (hcard : request.amount ≤ (filterByDifficulty pool request).dedup.length) :
    (ProblemSelector.select pool request o).length = request.amount := by
  unfold ProblemSelector.select
  by_cases hne : filterByDifficulty pool request = []
  · rw [if_pos hne]
    rw [hne] at hcard
    simp at hcard
    simp [hcard]
  · rw [if_neg hne]
    set E := filterByDifficulty pool request with hE
    set es := o.se E with hes
    set s := pickPhase request es o with hs
    have hsE : ∀ x ∈ s, x ∈ es := pickPhase_subset request es o hL
    have hperm : es.Perm E := hL.1 E
    unfold topUp
    split_ifs with hshort
    · set rem := es.filter (fun item => decide (item ∉ s)) with hrem
      have hcover : E.dedup ⊆ s ++ rem := by
        intro x hx
        have hx1 : x ∈ E := List.dedup_subset E hx
        have hx2 : x ∈ es := hperm.mem_iff.mpr hx1
        by_cases hxs : x ∈ s
        · exact List.mem_append.mpr (Or.inl hxs)
        · refine List.mem_append.mpr (Or.inr ?_)
          rw [hrem, List.mem_filter]
          exact ⟨hx2, by simpa using hxs⟩
      have hsub : E.dedup.length ≤ s.length + rem.length := by
        have := (List.subperm_of_subset (List.nodup_dedup E) hcover).length_le
        simpa using this
      have hsr : (o.sr rem).length = rem.length := (hL.2.2.2 rem).length_eq
      rw [List.length_take, List.length_append, List.length_take, hsr]
      omega
    · rw [List.length_take]
      omega

/-- Witness for C2 on a concrete pool and request. -/
theorem select_length_le_witness :
    (ProblemSelector.select witnessPool witnessRequest (idOracle Int)).length ≤
      witnessRequest.amount :=
  (select_length_le_and_levels_in_range witnessPool witnessRequest
    (idOracle Int) (idOracle_lawful Int)).1

/-- Witness for C7: a request whose window excludes the whole pool. -/
theorem select_empty_witness :
    ProblemSelector.select witnessPool witnessRequestHigh (idOracle Int) = [] :=
  select_empty_when_none_eligible witnessPool witnessRequestHigh (idOracle Int)
    (by decide)

/-- Witness for C3 on a concrete pool with enough distinct entries. -/
theorem select_length_eq_witness :
    (ProblemSelector.select witnessPool witnessRequest (idOracle Int)).length =
      witnessRequest.amount :=
  select_length_eq_amount witnessPool witnessRequest (idOracle Int)
    (idOracle_lawful Int) (by decide)

theorem minusTarget_le_amount (request : GenerationRequest α)
    (hratio : request.minus_ratio ≤ 100) :
    minusTarget request ≤ request.amount := by
  have hmul : request.amount * request.minus_ratio ≤ request.amount * 100 :=
    Nat.mul_le_mul_left _ hratio
  have hdiv := Nat.div_add_mod (request.amount * request.minus_ratio) 100
  have hmod : request.amount * request.minus_ratio % 100 < 100 :=
    Nat.mod_lt _ (by omega)
  simp only [minusTarget, roundHalfEvenDiv]
  split_ifs <;> omega

theorem shrinkTarget_eq_of_le (len : Nat) (t : Int) (h : t ≤ (len : Int)) :
    shrinkTarget len t = t := by
  unfold shrinkTarget
  rw [if_neg (by omega)]

theorem pyTake_natCast (n : Nat) (l : List (Scored α)) :
    pyTake (n : Int) l = l.take n := by
  unfold pyTake
  rw [if_pos (Int.natCast_nonneg n)]
  simp

/-- C4: with `minus_target = round(amount * minus_ratio / 100)` and
`plus_target = amount - minus_target`, whenever the subtraction-led and
addition-led partitions of the difficulty-filtered pool each contain at
least their target many members, the returned batch contains exactly
`minus_target` subtraction-led and exactly `plus_target` addition-led
problems.  (`minus_ratio ≤ 100`, as `prompt_percentage` guarantees.) -/
theorem select_operator_mix [LinearOrder α] (pool : List (Scored α))
    (request : GenerationRequest α) (o : SelectOracle α) (hL : o.Lawful)
    (hratio : request.minus_ratio ≤ 100)
    (hminus : minusTarget request ≤
      (buildOperatorPools (filterByDifficulty pool request)).minus.length)
    (hplus : request.amount - minusTarget request ≤
      (buildOperatorPools (filterByDifficulty pool request)).plus.length) :
    ((ProblemSelector.select pool request o).countP
        fun x => decide (x.1.leadingOp = Op.minus)) = minusTarget request ∧
      ((ProblemSelector.select pool request o).countP
        fun x => decide (x.1.leadingOp = Op.plus)) =
        request.amount - minusTarget request := by
  have hle := minusTarget_le_amount request hratio
  unfold ProblemSelector.select
  by_cases hne : filterByDifficulty pool request = []
  · rw [if_pos hne]
    rw [hne] at hminus hplus
    simp only [buildOperatorPools, List.filter_nil, List.length_nil,
      Nat.le_zero] at hminus hplus
    simp only [List.countP_nil]
    omega
  · rw [if_neg hne]
    set E := filterByDifficulty pool request with hE
    set es := o.se E with hes
    have hperm : es.Perm E := hL.1 E
    have hmlen : (buildOperatorPools es).minus.length =
        (buildOperatorPools E).minus.length := by
      simpa [buildOperatorPools] using (hperm.filter _).length_eq
    have hplen : (buildOperatorPools es).plus.length =
        (buildOperatorPools E).plus.length := by
      simpa [buildOperatorPools] using (hperm.filter _).length_eq
    have hm1 : minusTarget request ≤ (buildOperatorPools es).minus.length := by
      rw [hmlen]; exact hminus
    have hp1 : request.amount - minusTarget request ≤
        (buildOperatorPools es).plus.length := by
      rw [hplen]; exact hplus
    have hsm : (o.sm (buildOperatorPools es).minus).length =
        (buildOperatorPools es).minus.length :=
      (hL.2.1 _).length_eq
    have hsp : (o.sp (buildOperatorPools es).plus).length =
        (buildOperatorPools es).plus.length :=
      (hL.2.2.1 _).length_eq
    have hptInt : plusTargetInt request =
        ((request.amount - minusTarget request : Nat) : Int) := by
      unfold plusTargetInt; omega
    have hpick : pickPhase request es o =
        (o.sm (buildOperatorPools es).minus).take (minusTarget request) ++
          (o.sp (buildOperatorPools es).plus).take
            (request.amount - minusTarget request) := by
      unfold pickPhase
      rw [shrinkTarget_eq_of_le _ _ (by exact_mod_cast hm1),
        shrinkTarget_eq_of_le _ _ (by rw [hptInt]; exact_mod_cast hp1),
        hptInt, pyTake_natCast, pyTake_natCast]
    have hlen1 :
        ((o.sm (buildOperatorPools es).minus).take (minusTarget request)).length
          = minusTarget request := by
      rw [List.length_take, hsm]
      omega
    have hlen2 :
        ((o.sp (buildOperatorPools es).plus).take
            (request.amount - minusTarget request)).length =
          request.amount - minusTarget request := by
      rw [List.length_take, hsp]
      omega
    have hmem1 :
        ∀ x ∈ (o.sm (buildOperatorPools es).minus).take (minusTarget request),
          x.1.leadingOp = Op.minus := by
      intro x hx
      have h1 := List.take_subset _ _ hx
      have h2 := (hL.2.1 _).mem_iff.mp h1
      simp only [buildOperatorPools, List.mem_filter, decide_eq_true_eq] at h2
      exact h2.2
    have hmem2 :
        ∀ x ∈ (o.sp (buildOperatorPools es).plus).take
            (request.amount - minusTarget request),
          x.1.leadingOp = Op.plus := by
      intro x hx
      have h1 := List.take_subset _ _ hx
      have h2 := (hL.2.2.1 _).mem_iff.mp h1
      simp only [buildOperatorPools, List.mem_filter, decide_eq_true_eq] at h2
      exact h2.2
    rw [hpick]
    have hslen :
        ((o.sm (buildOperatorPools es).minus).take (minusTarget request) ++
            (o.sp (buildOperatorPools es).plus).take
              (request.amount - minusTarget request)).length =
          request.amount := by
      rw [List.length_append, hlen1, hlen2]
      omega
    have htop :
        topUp request es
            ((o.sm (buildOperatorPools es).minus).take (minusTarget request) ++
              (o.sp (buildOperatorPools es).plus).take
                (request.amount - minusTarget request)) o =
          (o.sm (buildOperatorPools es).minus).take (minusTarget request) ++
            (o.sp (buildOperatorPools es).plus).take
              (request.amount - minusTarget request) := by
      unfold topUp
      rw [if_neg (by omega)]
    rw [htop, List.take_of_length_le (by rw [hslen])]
    constructor
    · rw [List.countP_append,
        List.countP_eq_length.mpr (fun a ha => by simp [hmem1 a ha]),
        List.countP_eq_zero.mpr (fun a ha => by simp [hmem2 a ha]),
        hlen1]
      omega
    · rw [List.countP_append,
        List.countP_eq_zero.mpr (fun a ha => by simp [hmem1 a ha]),
        List.countP_eq_length.mpr (fun a ha => by simp [hmem2 a ha]),
        hlen2]
      omega

/-- Witness for C4: both partitions meet their targets, so the mix is
exact. -/
theorem select_operator_mix_witness :
    ((ProblemSelector.select witnessPool witnessRequest (idOracle Int)).countP
        fun x => decide (x.1.leadingOp = Op.minus)) =
        minusTarget witnessRequest ∧
      ((ProblemSelector.select witnessPool witnessRequest (idOracle Int)).countP
        fun x => decide (x.1.leadingOp = Op.plus)) =
        witnessRequest.amount - minusTarget witnessRequest :=
  select_operator_mix witnessPool witnessRequest (idOracle Int)
    (idOracle_lawful Int) (by decide) (by decide) (by decide)

/-! ### Lemmas about consume and multi-batch rounds -/

theorem removeFirst_subset {β : Type} [DecidableEq β] (l : List β) (a : β) :
    ∀ x ∈ removeFirst l a, x ∈ l := by
  induction l with
  | nil => simp [removeFirst]
  | cons y ys ih =>
      intro x hx
      rw [removeFirst] at hx
      split_ifs at hx with h
      · exact List.mem_cons_of_mem _ hx
      · rcases List.mem_cons.mp hx with h1 | h1
        · exact h1 ▸ List.mem_cons_self _ _
        · exact List.mem_cons_of_mem _ (ih x h1)

theorem consume_subset [LinearOrder α] (selected : List (Scored α)) :
    ∀ (pool : List (Scored α)) (x : Scored α),
      x ∈ ProblemSelector.consume pool selected → x ∈ pool := by
  induction selected with
  | nil => intro pool x hx; exact hx
  | cons a rest ih =>
      intro pool x hx
      exact removeFirst_subset pool a x (ih (removeFirst pool a) x hx)

theorem removeFirst_eq_filter {β : Type} [DecidableEq β] (l : List β) (a : β)
    (h : l.Nodup) :
    removeFirst l a = l.filter (fun x => decide (x ≠ a)) := by
  induction l with
  | nil => rfl
  | cons x xs ih =>
      rw [List.nodup_cons] at h
      by_cases hxa : x = a
      · subst hxa
        rw [removeFirst, if_pos rfl]
        have hf : List.filter (fun y => decide (y ≠ x)) (x :: xs) =
            List.filter (fun y => decide (y ≠ x)) xs := by
          rw [List.filter_cons]
          simp
        rw [hf]
        refine (List.filter_eq_self.mpr ?_).symm
        intro y hy
        simp only [ne_eq, decide_eq_true_eq]
        exact fun heq => h.1 (heq ▸ hy)
      · rw [removeFirst, if_neg hxa]
        have hf : List.filter (fun y => decide (y ≠ a)) (x :: xs) =
            x :: List.filter (fun y => decide (y ≠ a)) xs := by
          rw [List.filter_cons]
          simp [hxa]
        rw [hf, ih h.2]

theorem consume_eq_filter [LinearOrder α] (selected : List (Scored α)) :
    ∀ (pool : List (Scored α)), pool.Nodup →
      ProblemSelector.consume pool selected =
        pool.filter (fun x => decide (x ∉ selected)) := by
  induction selected with
  | nil =>
      intro pool h
      simp [ProblemSelector.consume]
  | cons a rest ih =>
      intro pool h
      have h1 : removeFirst pool a = pool.filter (fun x => decide (x ≠ a)) :=
        removeFirst_eq_filter pool a h
      have h2 : (pool.filter fun x => decide (x ≠ a)).Nodup := h.filter _
      calc ProblemSelector.consume pool (a :: rest)
          = ProblemSelector.consume (removeFirst pool a) rest := rfl
        _ = (pool.filter fun x => decide (x ≠ a)).filter
              (fun x => decide (x ∉ rest)) := by rw [h1]; exact ih _ h2
        _ = pool.filter (fun x => decide (x ∉ a :: rest)) := by
              rw [List.filter_filter]
              refine List.filter_congr ?_
              intro x hx
              simp [List.mem_cons, not_or, Bool.and_comm]

theorem select_subset_pool [LinearOrder α] (pool : List (Scored α))
    (request : GenerationRequest α) (o : SelectOracle α) (hL : o.Lawful) :
    ∀ x ∈ ProblemSelector.select pool request o, x ∈ pool := by
  intro x hx
  exact List.mem_of_mem_filter (select_mem pool request o hL x hx)

theorem runRounds_mem_subset [LinearOrder α]
    (rounds : List (GenerationRequest α × SelectOracle α)) :
    ∀ (pool : List (Scored α)),
      (∀ r ∈ rounds, SelectOracle.Lawful r.2) →
      ∀ b ∈ runRounds pool rounds, ∀ x ∈ b, x ∈ pool := by
  induction rounds with
  | nil => intro pool h b hb; simp [runRounds] at hb
  | cons rd rest ih =>
      intro pool h b hb
      obtain ⟨req, o⟩ := rd
      rw [runRounds] at hb
      rcases List.mem_cons.mp hb with h1 | h1
      · subst h1
        exact select_subset_pool pool req o (h _ (List.mem_cons_self _ _))
      · intro x hx
        exact consume_subset _ _ _
          (ih (ProblemSelector.consume pool (ProblemSelector.select pool req o))
            (fun r hr => h r (List.mem_cons_of_mem _ hr)) b h1 x hx)

/-- C8: for any sequence of selection rounds in which each batch returned by
`select` is passed to `consume` before the next `select`, starting from a
pool whose entries are pairwise distinct, any two produced batches are
disjoint: no problem instance appears in more than one batch. -/
theorem runRounds_batches_disjoint [LinearOrder α]
    (rounds : List (GenerationRequest α × SelectOracle α))
    (pool : List (Scored α)) (hpool : pool.Nodup)
    (hL : ∀ r ∈ rounds, SelectOracle.Lawful r.2) :
    (runRounds pool rounds).Pairwise (fun b1 b2 => ∀ x ∈ b1, x ∉ b2) := by
  induction rounds generalizing pool with
  | nil => simp [runRounds]
  | cons rd rest ih =>
      obtain ⟨req, o⟩ := rd
      rw [runRounds]
      have hrest : ∀ r ∈ rest, SelectOracle.Lawful r.2 :=
        fun r hr => hL r (List.mem_cons_of_mem _ hr)
      refine List.Pairwise.cons ?_ (ih _ ?_ hrest)
      · intro b hb x hxbatch hxb
        have h1 := runRounds_mem_subset rest _ hrest b hb x hxb
        rw [consume_eq_filter _ _ hpool, List.mem_filter] at h1
        have h2 := h1.2
        simp only [decide_eq_true_eq] at h2
        exact h2 hxbatch
      · rw [consume_eq_filter _ _ hpool]
        exact hpool.filter _

/-- Witness for C8: two rounds over the concrete pool. -/
theorem runRounds_batches_disjoint_witness :
    (runRounds witnessPool
        [(witnessRequest, idOracle Int),
          (witnessRequest, idOracle Int)]).Pairwise
      (fun b1 b2 => ∀ x ∈ b1, x ∉ b2) :=
  runRounds_batches_disjoint
    [(witnessRequest, idOracle Int), (witnessRequest, idOracle Int)]
    witnessPool (by decide)
    (by
      intro r hr
      simp only [List.mem_cons, List.not_mem_nil, or_false] at hr
      rcases hr with rfl | rfl <;> exact idOracle_lawful Int)

/-! ### Lemmas about generate -/

theorem stepCollect_cap (balance : Bool)
    (max_per_answer plus_target minus_target : Nat) (st : GenState α)
    (c : Scored α)
    (hinv : ∀ b : Int, st.counts b =
        st.collected.countP (fun x => decide (x.1.answer = b)) ∧
      st.counts b ≤ max_per_answer) :
    ∀ b : Int,
      (stepCollect balance max_per_answer plus_target minus_target st c).counts b =
        (stepCollect balance max_per_answer plus_target minus_target
            st c).collected.countP (fun x => decide (x.1.answer = b)) ∧
      (stepCollect balance max_per_answer plus_target minus_target st c).counts b ≤
        max_per_answer := by
  intro b
  have happend : ¬max_per_answer ≤ st.counts c.1.answer →
      ((if b = c.1.answer then st.counts b + 1 else st.counts b) =
        (st.collected ++ [c]).countP (fun x => decide (x.1.answer = b)) ∧
      (if b = c.1.answer then st.counts b + 1 else st.counts b) ≤
        max_per_answer) := by
    intro h1
    constructor
    · rw [List.countP_append]
      by_cases hb : b = c.1.answer
      · subst hb
        rw [if_pos rfl, (hinv _).1]
        simp [List.countP_cons]
      · rw [if_neg hb, (hinv b).1]
        have hdec : (decide (c.1.answer = b)) = false := by
          simp only [decide_eq_false_iff_not]
          exact fun heq => hb heq.symm
        simp [List.countP_cons, hdec]
    · by_cases hb : b = c.1.answer
      · subst hb
        rw [if_pos rfl]
        omega
      · rw [if_neg hb]
        exact (hinv b).2
  simp only [stepCollect]
  split_ifs with h1 h2 h3 h4 h5
  · exact hinv b
  · exact hinv b
  · exact hinv b
  all_goals exact happend h1

theorem scanCandidates_cap (balance : Bool)
    (amount max_per_answer plus_target minus_target : Nat)
    (l : List (Scored α)) :
    ∀ (st : GenState α),
      (∀ b : Int, st.counts b =
          st.collected.countP (fun x => decide (x.1.answer = b)) ∧
        st.counts b ≤ max_per_answer) →
      ∀ b : Int,
        (scanCandidates balance amount max_per_answer plus_target minus_target
            l st).counts b =
          (scanCandidates balance amount max_per_answer plus_target minus_target
              l st).collected.countP (fun x => decide (x.1.answer = b)) ∧
        (scanCandidates balance amount max_per_answer plus_target minus_target
            l st).counts b ≤ max_per_answer := by
  induction l with
  | nil => intro st hinv b; exact hinv b
  | cons c rest ih =>
      intro st hinv b
      rw [scanCandidates]
      split_ifs with h
      · exact hinv b
      · exact ih _ (stepCollect_cap balance max_per_answer plus_target
          minus_target st c hinv) b

theorem genLoop2_cap [LinearOrder α] (factoryOut : Nat → Option Problem)
    (diff : Problem → α) (min_level max_level : α) (balance : Bool)
    (amount max_per_answer plus_target minus_target : Nat) (fuel : Nat) :
    ∀ (attempts : Nat) (st : GenState α),
      (∀ b : Int, st.counts b =
          st.collected.countP (fun x => decide (x.1.answer = b)) ∧
        st.counts b ≤ max_per_answer) →
      ∀ b : Int,
        ((genLoop2 factoryOut diff min_level max_level balance amount
            max_per_answer plus_target minus_target fuel attempts st).1).counts b =
          ((genLoop2 factoryOut diff min_level max_level balance amount
              max_per_answer plus_target minus_target fuel attempts
              st).1).collected.countP (fun x => decide (x.1.answer = b)) ∧
        ((genLoop2 factoryOut diff min_level max_level balance amount
            max_per_answer plus_target minus_target fuel attempts st).1).counts b ≤
          max_per_answer := by
  induction fuel with
  | zero => intro attempts st hinv b; exact hinv b
  | succ fuel ih =>
      intro attempts st hinv b
      rw [genLoop2]
      split_ifs with h
      · exact hinv b
      · cases hfo : factoryOut attempts with
        | none => simp only [hfo]; exact ih _ _ hinv b
        | some p =>
            simp only [hfo]
            split_ifs with hops hlev
            · exact ih _ _ hinv b
            · exact ih _ _ (stepCollect_cap balance max_per_answer plus_target
                minus_target st (p, diff p) hinv) b
            · exact ih _ _ hinv b

theorem genLoop2_collected_cap [LinearOrder α] (factoryOut : Nat → Option Problem)
    (diff : Problem → α) (min_level max_level : α) (balance : Bool)
    (amount max_per_answer plus_target minus_target fuel attempts : Nat)
    (st : GenState α)
    (hinv : ∀ b : Int, st.counts b =
        st.collected.countP (fun x => decide (x.1.answer = b)) ∧
      st.counts b ≤ max_per_answer) (a : Int) :
    (((genLoop2 factoryOut diff min_level max_level balance amount
        max_per_answer plus_target minus_target fuel attempts
        st).1).collected.countP fun x => decide (x.1.answer = a)) ≤
      max_per_answer := by
  have h := genLoop2_cap factoryOut diff min_level max_level balance amount
    max_per_answer plus_target minus_target fuel attempts st hinv a
  exact h.1 ▸ h.2

/-- C5: in the batch returned by `generate`, no single final answer value
occurs more than `max(1, ceil(amount / 10))` times (the code's
`max_per_answer = max(1, (amount + 9) // 10)` cap); in particular, for
`amount = 100`, no answer value appears more than 10 times. -/
theorem generate_answer_cap [LinearOrder α] (terms : Nat)
    (factoryOut : Nat → Option Problem) (diff : Problem → α) (amount : Nat)
    (min_level max_level : α)
    (shuffleCands : List (Scored α) → List (Scored α)) (oddPlus : Bool)
    (hamount : 1 ≤ amount) (a : Int) :
    ((generate terms factoryOut diff amount min_level max_level shuffleCands
        oddPlus).countP fun x => decide (x.1.answer = a)) ≤
      max 1 ((amount + 9) / 10) := by
  have hinit : ∀ b : Int, (initGenState α).counts b =
      (initGenState α).collected.countP (fun x => decide (x.1.answer = b)) ∧
      (initGenState α).counts b ≤ max 1 ((amount + 9) / 10) := by
    intro b
    simp [initGenState]
  unfold generate generateFull
  dsimp only
  apply genLoop2_collected_cap
  split_ifs <;>
    first
      | exact hinit
      | exact fun b => scanCandidates_cap _ amount _ _ _ _ _ hinit b

/-- Witness for C5 at `amount = 1` and a constant factory oracle. -/
theorem generate_answer_cap_witness :
    ((generate 2 (fun _ => some ⟨[1, 2], [Op.plus]⟩) (fun _ => (0 : Int)) 1
        (0 : Int) (0 : Int) id true).countP
      fun x => decide (x.1.answer = 3)) ≤ max 1 ((1 + 9) / 10) :=
  generate_answer_cap 2 (fun _ => some ⟨[1, 2], [Op.plus]⟩) (fun _ => (0 : Int))
    1 0 0 id true (by decide) 3

theorem genLoop1_attempts_le [LinearOrder α] {factoryOut : Nat → Option Problem}
    {diff : Problem → α} {min_level max_level : α} {candidate_target : Nat}
    (fuel : Nat) :
    ∀ (attempts : Nat) (cs : List (Scored α)),
      (genLoop1 factoryOut diff min_level max_level candidate_target fuel
        attempts cs).2 ≤ attempts + fuel := by
  induction fuel with
  | zero => intro att cs; exact Nat.le_add_right att 0
  | succ fuel ih =>
      intro att cs
      rw [genLoop1]
      split_ifs with h
      · exact Nat.le_add_right att (fuel + 1)
      · cases hfo : factoryOut att with
        | none => simp only [hfo]; exact le_trans (ih _ _) (by omega)
        | some p =>
            simp only [hfo]
            split_ifs with hops hlev
            · exact le_trans (ih _ _) (by omega)
            · exact le_trans (ih _ _) (by omega)
            · exact le_trans (ih _ _) (by omega)

theorem genLoop2_attempts_le [LinearOrder α] {factoryOut : Nat → Option Problem}
    {diff : Problem → α} {min_level max_level : α} {balance : Bool}
    {amount max_per_answer plus_target minus_target : Nat} (fuel : Nat) :
    ∀ (attempts : Nat) (st : GenState α),
      (genLoop2 factoryOut diff min_level max_level balance amount
        max_per_answer plus_target minus_target fuel attempts st).2 ≤
        attempts + fuel := by
  induction fuel with
  | zero => intro att st; exact Nat.le_add_right att 0
  | succ fuel ih =>
      intro att st
      rw [genLoop2]
      split_ifs with h
      · exact Nat.le_add_right att (fuel + 1)
      · cases hfo : factoryOut att with
        | none => simp only [hfo]; exact le_trans (ih _ _) (by omega)
        | some p =>
            simp only [hfo]
            split_ifs with hops hlev
            · exact le_trans (ih _ _) (by omega)
            · exact le_trans (ih _ _) (by omega)
            · exact le_trans (ih _ _) (by omega)

theorem stepCollect_length_le (balance : Bool)
    (max_per_answer plus_target minus_target : Nat) (st : GenState α)
    (c : Scored α) :
    (stepCollect balance max_per_answer plus_target minus_target
        st c).collected.length ≤ st.collected.length + 1 := by
  simp only [stepCollect]
  split_ifs <;>
    (try simp only [List.length_append, List.length_cons, List.length_nil]) <;>
    omega

theorem scanCandidates_length_le {balance : Bool}
    {amount max_per_answer plus_target minus_target : Nat}
    (l : List (Scored α)) :
    ∀ st : GenState α, st.collected.length ≤ amount →
      (scanCandidates balance amount max_per_answer plus_target minus_target l
        st).collected.length ≤ amount := by
  induction l with
  | nil => intro st h; exact h
  | cons c rest ih =>
      intro st h
      rw [scanCandidates]
      split_ifs with hlen
      · exact h
      · refine ih _ ?_
        have := stepCollect_length_le balance max_per_answer plus_target
          minus_target st c
        omega

theorem genLoop2_length_le [LinearOrder α] {factoryOut : Nat → Option Problem}
    {diff : Problem → α} {min_level max_level : α} {balance : Bool}
    {amount max_per_answer plus_target minus_target : Nat} (fuel : Nat) :
    ∀ (attempts : Nat) (st : GenState α), st.collected.length ≤ amount →
      ((genLoop2 factoryOut diff min_level max_level balance amount
        max_per_answer plus_target minus_target fuel attempts
        st).1).collected.length ≤ amount := by
  induction fuel with
  | zero => intro att st h; exact h
  | succ fuel ih =>
      intro att st h
      rw [genLoop2]
      split_ifs with hc
      · exact h
      · cases hfo : factoryOut att with
        | none => simp only [hfo]; exact ih _ _ h
        | some p =>
            simp only [hfo]
            split_ifs with hops hlev
            · exact ih _ _ h
            · refine ih _ _ ?_
              have := stepCollect_length_le balance max_per_answer plus_target
                minus_target st (p, diff p)
              omega
            · exact ih _ _ h

/-- C10: `generate` always terminates (the model's loops structurally recurse
on the remaining attempt budget): its shared `attempts` counter — which
counts the calls to `factory.create` across both loops — ends at most
`200 * max(amount * 2, amount)`, and it returns at most `amount` scored
problems even when the budget is exhausted. -/
theorem generate_attempts_and_length_bounded [LinearOrder α] (terms : Nat)
    (factoryOut : Nat → Option Problem) (diff : Problem → α) (amount : Nat)
    (min_level max_level : α)
    (shuffleCands : List (Scored α) → List (Scored α)) (oddPlus : Bool)
    (hamount : 1 ≤ amount) :
    (generateFull terms factoryOut diff amount min_level max_level shuffleCands
        oddPlus).2 ≤ 200 * max (amount * 2) amount ∧
      (generateFull terms factoryOut diff amount min_level max_level
        shuffleCands oddPlus).1.length ≤ amount := by
  unfold generateFull
  dsimp only
  constructor
  · refine le_trans (genLoop2_attempts_le _ _ _) ?_
    have h1 := @genLoop1_attempts_le α _ factoryOut diff min_level max_level
      (max (amount * 2) amount) (max (amount * 2) amount * 200) 0 []
    omega
  · refine genLoop2_length_le _ _ _ ?_
    split_ifs <;>
      first
        | exact scanCandidates_length_le _ _ (by simp [initGenState])
        | simp [initGenState]

/-- Witness for C10 with a constant factory oracle at `amount = 1`. -/
theorem generate_attempts_and_length_bounded_witness :
    (generateFull 2 (fun _ => some ⟨[1, 2], [Op.plus]⟩) (fun _ => (0 : Int)) 1
        (0 : Int) (0 : Int) id true).2 ≤ 200 * max (1 * 2) 1 ∧
      (generateFull 2 (fun _ => some ⟨[1, 2], [Op.plus]⟩) (fun _ => (0 : Int)) 1
        (0 : Int) (0 : Int) id true).1.length ≤ 1 :=
  generate_attempts_and_length_bounded 2 (fun _ => some ⟨[1, 2], [Op.plus]⟩)
    (fun _ => (0 : Int)) 1 0 0 id true (by decide)

end NumNum
